import Mathlib

/-!
Verification of the `uri` library (headers `character_checks.h`,
`elements_checks.h`, `URI.h`).  Strings are embedded as `List Char`
(`std::string_view` slices become plain lists obtained with `take`/`drop`);
`std::size_t` subtraction that can wrap is written with an explicit
`% 2 ^ 64`; code that throws returns `Except`; an out-of-bounds read
(undefined behaviour in the source) is surfaced as a distinguished
error value.  Every definition mirrors the corresponding source function.
-/

namespace uri

/-! ## Character predicates (`character_checks.h`) -/

/-- `uri::checks::characters::is_alpha`. -/
def is_alpha (c : Char) : Bool :=
  (decide ('A' ≤ c) && decide (c ≤ 'Z')) || (decide ('a' ≤ c) && decide (c ≤ 'z'))

/-- `uri::checks::characters::is_digit`. -/
def is_digit (c : Char) : Bool :=
  decide ('0' ≤ c) && decide (c ≤ '9')

/-- `uri::checks::characters::is_hex_digit`. -/
def is_hex_digit (c : Char) : Bool :=
  is_digit c || (decide ('A' ≤ c) && decide (c ≤ 'F'))
    || (decide ('a' ≤ c) && decide (c ≤ 'f'))

/-- `uri::checks::characters::is_unreserved`. -/
def is_unreserved (c : Char) : Bool :=
  is_alpha c || is_digit c || decide (c ∈ ['-', '.', '_', '~'])

/-- `uri::checks::characters::is_subdelimiter`. -/
def is_subdelimiter (c : Char) : Bool :=
  decide (c ∈ ['!', '$', '&', '\'', '(', ')', '*', '+', ',', ';', '='])

/-! ## Element predicates (`elements_checks.h`) -/

/-- `uri::checks::elements::is_decimal_octet`.  The source initialises
`value = 0`, overwrites it only when every examined byte is a digit, and
then applies a length-bucketed range check (`> 0`, `[10,100)`, `[100,256)`). -/
def is_decimal_octet (element : List Char) : Bool :=
  match element with
  | [] => false
  | [a] =>
    let value := if is_digit a then a.toNat - '0'.toNat else 0
    decide (value > 0)
  | [a, b] =>
    let value :=
      if is_digit a && is_digit b then
        (a.toNat - '0'.toNat) * 10 + (b.toNat - '0'.toNat)
      else 0
    decide (value ≥ 10) && decide (value < 100)
  | [a, b, c] =>
    let value :=
      if is_digit a && is_digit b && is_digit c then
        (a.toNat - '0'.toNat) * 100 + (b.toNat - '0'.toNat) * 10 + (c.toNat - '0'.toNat)
      else 0
    decide (value ≥ 100) && decide (value < 256)
  | _ => false

/-- The scanning loop of `uri::checks::elements::is_IPv4`: walks the bytes
while fewer than four octets have been captured, capturing an octet at every
`'.'` and rejecting (`none`) any byte that is neither a digit nor a `'.'`.
Returns the loop-exit values of `i`, `idx`, `last` and the captured octets.
The remaining bytes are passed as `rest` (the suffix of `element` from
index `i`). -/
def ipv4Loop (element : List Char) :
    List Char → Nat → Nat → Nat → List (List Char) →
      Option (Nat × Nat × Nat × List (List Char))
  | [], i, idx, last, acc => some (i, idx, last, acc)
  | c :: rest, i, idx, last, acc =>
    if 4 ≤ idx then some (i, idx, last, acc)
    else if c = '.' then
      ipv4Loop element rest (i + 1) (idx + 1) (i + 1)
        (acc ++ [(element.drop last).take (i - last)])
    else if is_digit c then ipv4Loop element rest (i + 1) idx last acc
    else none

/-- `uri::checks::elements::is_IPv4`.  The source's final-octet branch
references an identifier `entity` that is not in scope (the file does not
compile as written); following the spec's design note it is modelled with
the parameter `element`, the evident intent. -/
def is_IPv4 (element : List Char) : Bool :=
  match ipv4Loop element element 0 0 0 [] with
  | none => false
  | some (i, idx, last, acc) =>
    let final :=
      if i = element.length ∧ idx ≠ 4 then
        (idx + 1, acc ++ [(element.drop last).take (element.length - last)])
      else (idx, acc)
    decide (final.1 = 4) && final.2.all (fun sv => is_decimal_octet sv)

/-- `element.size() - 2` as the C++ computes it: `size()` has type
`std::size_t`, so the subtraction is performed modulo `2 ^ 64` and wraps
for `n < 2`. -/
def size_t_sub2 (n : Nat) : Nat := (n + 2 ^ 64 - 2) % 2 ^ 64

/-- The byte loop of `uri::checks::elements::is_regular_name`, with every
indexed read made explicit: a read outside the view (undefined behaviour
in C++) yields `none`.  The percent-encoding branch tests
`element[i] == '%' && i < (element.size() - 2)` with the unsigned
subtraction `size_t_sub2` and then reads `element[i+1]` and
`element[i+2]`. -/
def regNameLoop (element : List Char) : Nat → Nat → Option Bool
  | 0, _ => some true
  | fuel + 1, i =>
    match element.get? i with
    | none => some true
    | some c =>
      if is_unreserved c || is_subdelimiter c then regNameLoop element fuel (i + 1)
      else if c = '%' && decide (i < size_t_sub2 element.length) then
        match element.get? (i + 1) with
        | none => none
        | some c1 =>
          if is_hex_digit c1 then
            match element.get? (i + 2) with
            | none => none
            | some c2 =>
              if is_hex_digit c2 then regNameLoop element fuel (i + 3) else some false
          else some false
      else some false

/-- `uri::checks::elements::is_regular_name`, instrumented so that an
out-of-bounds read is `none` instead of undefined behaviour. -/
def is_regular_name_checked (element : List Char) : Option Bool :=
  if element.isEmpty then some true else regNameLoop element element.length 0

/-! ## View searching helpers

`std::string_view` searches used by `URI.h`, on `List Char` slices. -/

/-- `pat` is an initial run of `l` (used for the `substr(0,2) == "//"` test
and as the matcher of `std::search`). -/
def leadsWith : List Char → List Char → Bool
  | [], _ => true
  | _ :: _, [] => false
  | p :: ps, x :: xs => if p = x then leadsWith ps xs else false

/-- `std::search` for a non-empty pattern: index of the first occurrence of
`pat` as a contiguous run of `l`. -/
def findSeq (pat : List Char) : List Char → Option Nat
  | [] => none
  | x :: xs =>
    if leadsWith pat (x :: xs) then some 0 else (findSeq pat xs).map (· + 1)

/-- `string_view::find(c)` : index of the first occurrence of `c`. -/
def findCh (c : Char) : List Char → Option Nat
  | [] => none
  | x :: xs => if x = c then some 0 else (findCh c xs).map (· + 1)

/-- `string_view::find(c, start)` : first occurrence of `c` at index ≥ `start`. -/
def findFrom (c : Char) (l : List Char) (start : Nat) : Option Nat :=
  (findCh c (l.drop start)).map (· + start)

/-- `string_view::find_first_of(seps)` : index of the first byte that is one
of `cs`. -/
def findAny (cs : List Char) : List Char → Option Nat
  | [] => none
  | x :: xs => if x ∈ cs then some 0 else (findAny cs xs).map (· + 1)

/-- `string_view::find_last_of(c)` for a single character: index of the last
occurrence of `c`. -/
def findLast (c : Char) : List Char → Option Nat
  | [] => none
  | x :: xs =>
    match findLast c xs with
    | some n => some (n + 1)
    | none => if x = c then some 0 else none

/-! ## Parser state (`URI.h`) -/

/-- The fields of `uri::URI` that the parser populates.  Views into the raw
buffer are embedded as the lists of characters they denote; the
`std::map<strv, strv> queries_` is embedded as its insertion sequence
(`std::map::emplace` never overwrites, so lookups agree). -/
structure URIData where
  scheme : List Char
  user : List Char
  host : List Char
  port : List Char
  path : List Char
  pathSegments : List (List Char)
  queryLine : List Char
  queries : List (List Char × List Char)
  fragment : List Char
  isAbsolutePath : Bool
deriving DecidableEq, Repr

/-- A default-constructed `uri::URI` field set. -/
def emptyURIData : URIData :=
  ⟨[], [], [], [], [], [], [], [], [], false⟩

/-- `URI::ParsingResult`. -/
inductive ParsingResult where
  | noError
  | emptyURI
deriving DecidableEq, Repr

/-- The failures of the parse: the two `std::runtime_error` throws, plus a
marker for an out-of-bounds `front()` call (undefined behaviour in the
source). -/
inductive ParseError where
  | malformedUser
  | malformedQuery
  | outOfBounds
deriving DecidableEq, Repr

/-- `URI::ParsingSteps`. -/
inductive ParsingSteps where
  | scheme
  | checkAuthority
  | authority
  | checkSeparator
  | path
  | fragment
  | query
deriving DecidableEq, Repr

/-- `std::map::emplace` on the embedded query mapping: inserts only when the
key is not already present (first occurrence wins). -/
def mapEmplace (qs : List (List Char × List Char)) (k v : List Char) :
    List (List Char × List Char) :=
  if qs.any (fun p => p.1 = k) then qs else qs ++ [(k, v)]

/-! ## Sub-parsers (`URI.h`) -/

/-- `URI::tryParseScheme`: looks for the literal `"://"`; on a hit the text
before the `':'` becomes the scheme and the cursor advances past the `':'`
(the `"//"` is left for `CheckAuthority`). -/
def tryParseScheme (st : URIData) (uri : List Char) : URIData × List Char :=
  match findSeq [':', '/', '/'] uri with
  | some k => ({ st with scheme := uri.take k }, uri.drop (k + 1))
  | none => (st, uri)

/-- `URI::tryParseUser`: the text before the first `'@'` becomes the user;
an `'@'` at position 0 throws (`MalformedUser`). -/
def tryParseUser (st : URIData) (uri : List Char) :
    Except ParseError (URIData × List Char) :=
  match findCh '@' uri with
  | some 0 => .error .malformedUser
  | some k => .ok ({ st with user := uri.take k }, uri.drop (k + 1))
  | none => .ok (st, uri)

/-- `URI::tryParseHost`: splits the remainder at the **last** `':'` into
host and port (no `':'` → the whole remainder is the host); either way the
whole remainder is consumed. -/
def tryParseHost (st : URIData) (uri : List Char) : URIData × List Char :=
  match findLast ':' uri with
  | some k => ({ st with host := uri.take k, port := uri.drop (k + 1) }, [])
  | none => ({ st with host := uri }, [])

/-- The authority slice of `URI::tryParseAuthority`: the bytes before the
first of `'/'`, `'#'`, `'?'` (or the whole cursor). -/
def authoritySlice (uri : List Char) : List Char :=
  match findAny ['/', '#', '?'] uri with
  | some pos => uri.take pos
  | none => uri

/-- `URI::tryParseAuthority`: runs the user and (when the rest is
non-empty) host sub-parsers on the authority slice, and drops the slice
(`initialAuthSize` bytes, captured before the sub-parsers run) from the
cursor. -/
def tryParseAuthority (st : URIData) (uri : List Char) :
    Except ParseError (URIData × List Char) :=
  match tryParseUser st (authoritySlice uri) with
  | .error e => .error e
  | .ok (st1, rest) =>
    .ok (if rest.isEmpty then st1 else (tryParseHost st1 rest).1,
         uri.drop (authoritySlice uri).length)

/-- The segmentation loop of `URI::tryParsePath`: each segment runs up to
and including the next `'/'`; the final segment (no further `'/'`) is the
non-empty remainder; an empty path yields no segments.  `fuel` bounds the
iteration count (`pathView` shrinks every round, so `path.length` is
enough). -/
def pathSegLoop : Nat → List Char → List (List Char)
  | _, [] => []
  | 0, _ :: _ => []
  | fuel + 1, x :: xs =>
    match findCh '/' (x :: xs) with
    | some pos => (x :: xs).take (pos + 1) :: pathSegLoop fuel ((x :: xs).drop (pos + 1))
    | none => [x :: xs]

/-- The path slice of `URI::tryParsePath`: the bytes before the first
`'?'` or `'#'` (or the whole cursor). -/
def pathSlice (uri : List Char) : List Char :=
  match findAny ['?', '#'] uri with
  | some pos => uri.take pos
  | none => uri

/-- `URI::tryParsePath`: when an authority was recognised
(`hasAuthority()`, i.e. the host is non-empty) one leading `'/'` is
consumed first; the path runs to the first `'?'` or `'#'`; then the code
calls `uri.front()` — undefined behaviour when the cursor is empty,
surfaced here as `.error .outOfBounds` — and sets `isAbsolutePath` when
that byte is `'/'`; finally the path is split into segments
(`emplace_back` appends to the existing `pathSegments_`). -/
def tryParsePath (st : URIData) (uri0 : List Char) :
    Except ParseError (URIData × List Char) :=
  match (if st.host = [] then uri0 else uri0.drop 1) with
  | [] => .error .outOfBounds
  | c :: cs =>
    .ok ({ st with
            path := pathSlice (c :: cs),
            isAbsolutePath := if c = '/' then true else st.isAbsolutePath,
            pathSegments := st.pathSegments ++
              pathSegLoop (pathSlice (c :: cs)).length (pathSlice (c :: cs)) },
         (c :: cs).drop (pathSlice (c :: cs)).length)

/-- The key–value loop of `URI::tryParseQuery`: repeatedly takes the piece
before the next `'&'` (or the whole non-empty remainder), requires a `'='`
in it (else throws `MalformedQuery`), and `emplace`s the pair.  A trailing
`'&'` leaves the view empty, ending the loop without examining an empty
final piece.  `fuel ≥ view.length` suffices. -/
def queryLoop : Nat → List (List Char × List Char) → List Char →
    Except ParseError (List (List Char × List Char))
  | _, qs, [] => .ok qs
  | 0, qs, _ :: _ => .ok qs
  | fuel + 1, qs, x :: xs =>
    let view := x :: xs
    match findCh '&' view with
    | some pos =>
      let piece := view.take pos
      match findCh '=' piece with
      | none => .error .malformedQuery
      | some eq =>
        queryLoop fuel (mapEmplace qs (piece.take eq) (piece.drop (eq + 1)))
          (view.drop (pos + 1))
    | none =>
      match findCh '=' view with
      | none => .error .malformedQuery
      | some eq => .ok (mapEmplace qs (view.take eq) (view.drop (eq + 1)))

/-- The query slice of `URI::tryParseQuery`: the bytes before the next
`'#'` (or the whole cursor). -/
def querySlice (uri : List Char) : List Char :=
  match findCh '#' uri with
  | some pos => uri.take pos
  | none => uri

/-- `URI::tryParseQuery`: the query line is the query slice, split by
`queryLoop` into key–value pairs `emplace`d into the existing map. -/
def tryParseQuery (st : URIData) (uri : List Char) :
    Except ParseError (URIData × List Char) :=
  match queryLoop (querySlice uri).length st.queries (querySlice uri) with
  | .error e => .error e
  | .ok qs =>
    .ok ({ st with queryLine := querySlice uri, queries := qs },
         uri.drop (querySlice uri).length)

/-- `URI::tryParseFragment`: removes one byte (`FRAG_SEP.size()`) and
stores the rest of the cursor as the fragment, consuming everything. -/
def tryParseFragment (st : URIData) (uri : List Char) : URIData × List Char :=
  ({ st with fragment := uri.drop 1 }, [])

/-- The `CheckAuthority` test `uriView.size() > AUTH_ANON.size() &&
uriView.substr(0, AUTH_ANON.size()) == AUTH_ANON`: `authAnon` is `"//"`
exactly when this holds, else empty. -/
def authAnonAt (uri : List Char) : Bool :=
  decide (2 < uri.length) && leadsWith ['/', '/'] uri

/-- The routing condition of the `CheckAuthority` step:
`!authAnon.empty() || nxtPathSep > 0 || nxtPathSep == npos ||
uriView.substr(nxtPathSep).empty()`, with `nxtPathSep =
uriView.find(PATH_SEP, authAnon.size())`, including the source's
short-circuiting: `npos` compares greater than `0`, so a missing `'/'`
routes to `Authority` before `substr(npos)` could be evaluated. -/
def checkAuthorityCond (uri : List Char) : Bool :=
  authAnonAt uri ||
    (match findFrom '/' uri (if authAnonAt uri then 2 else 0) with
     | none => true
     | some p => decide (0 < p) || decide (uri.drop p = []))

/-- The `while (!uriView.empty())` state machine of `URI::parse`, with
explicit fuel (every source iteration either consumes bytes or moves along
the finite step chain, so `length + 8` fuel always suffices). -/
def parseLoop : Nat → ParsingSteps → URIData → List Char →
    Except ParseError URIData
  | _, _, st, [] => .ok st
  | 0, _, st, _ :: _ => .ok st
  | fuel + 1, step, st, c :: rest =>
    match step with
    | .scheme =>
      parseLoop fuel .checkAuthority (tryParseScheme st (c :: rest)).1
        (tryParseScheme st (c :: rest)).2
    | .checkAuthority =>
      if checkAuthorityCond (c :: rest) then
        parseLoop fuel .authority st
          (if authAnonAt (c :: rest) then (c :: rest).drop 2 else c :: rest)
      else
        parseLoop fuel .checkSeparator st (c :: rest)
    | .authority =>
      match tryParseAuthority st (c :: rest) with
      | .error e => .error e
      | .ok (st2, rest2) => parseLoop fuel .checkSeparator st2 rest2
    | .checkSeparator =>
      if c = '/' then parseLoop fuel .path st (c :: rest)
      else if c = '?' then parseLoop fuel .query st rest
      else parseLoop fuel .fragment st rest
    | .path =>
      match tryParsePath st (c :: rest) with
      | .error e => .error e
      | .ok (st2, rest2) => parseLoop fuel .checkSeparator st2 rest2
    | .query =>
      match tryParseQuery st (c :: rest) with
      | .error e => .error e
      | .ok (st2, rest2) => parseLoop fuel .fragment st2 rest2
    | .fragment =>
      parseLoop fuel .fragment (tryParseFragment st (c :: rest)).1
        (tryParseFragment st (c :: rest)).2

/-- `URI::parse`: an empty input returns `EmptyURI` with all fields in
their default state; otherwise the state machine is driven from the
`Scheme` step. -/
def parse (input : List Char) : Except ParseError (ParsingResult × URIData) :=
  if input = [] then .ok (.emptyURI, emptyURIData)
  else
    match parseLoop (input.length + 8) .scheme emptyURIData input with
    | .error e => .error e
    | .ok st => .ok (.noError, st)

/-! ## Scheme mutation (`URI.h`, `setScheme`) -/

/-- The error of `std::string::replace` / `std::string::append` position
checks. -/
inductive SetSchemeError where
  | outOfRange
deriving DecidableEq, Repr

/-- `std::string::replace(pos, len, repl)`: throws `std::out_of_range`
when `pos > size()`; otherwise replaces `min(len, size() - pos)`
characters starting at `pos` with `repl`. -/
def replaceAt (s : List Char) (pos len : Nat) (repl : List Char) :
    Except SetSchemeError (List Char) :=
  if s.length < pos then .error .outOfRange
  else .ok (s.take pos ++ repl ++ (s.drop pos).drop len)

/-- `URI::setScheme` acting on the raw text.  `raw` is `uri_`, `scheme`
the current scheme view, `newScheme` the argument.  With a scheme present
the source calls `uri_.replace(scheme_[0], scheme_.size(), newScheme)`:
the first argument is the first *character* of the scheme, implicitly
converted to `size_t` (its code point), used as the replace position.
With no scheme it builds `newScheme + ":"` but calls
`uri_.append(scheme, scheme.size(), 0u)`, which appends
`scheme.substr(scheme.size(), 0) = ""` — nothing. -/
def setScheme (raw scheme newScheme : List Char) :
    Except SetSchemeError (List Char) :=
  if scheme.isEmpty then .ok (raw ++ [])
  else replaceAt raw (scheme.headD ' ').toNat scheme.length newScheme

/-! ## Spec-side notions for the query claim -/

/-- Modelled from the spec's words (claim C7): the pieces of the
`'&'`-split of the query text, in the usual sense of a split — `""`
splits into `[""]` and `"a=1&"` into `["a=1", ""]`.  `fuel ≥ length`
suffices. -/
def splitLoop : Nat → List Char → List (List Char)
  | 0, l => [l]
  | fuel + 1, l =>
    match findCh '&' l with
    | none => [l]
    | some pos => l.take pos :: splitLoop fuel (l.drop (pos + 1))

/-- Modelled from the spec's words (claim C7): the `'&'`-split of a query
text. -/
def splitOnAmp (l : List Char) : List (List Char) := splitLoop l.length l

/-- Modelled from the spec's words (amended claim C7): some piece, other
than a trailing empty piece, contains no `'='`. -/
def anyBad : List (List Char) → Bool
  | [] => false
  | [p] => !p.isEmpty && decide ('=' ∉ p)
  | p :: ps => decide ('=' ∉ p) || anyBad ps

/-- Concatenation of all path segments, in order (the spec's
`concat(path_segments)`). -/
def concatAll : List (List Char) → List Char
  | [] => []
  | s :: rest => s ++ concatAll rest

/-- The invariant carried through the parse loop for the segment
reconstruction claim: before the path is parsed both the path and its
segments are empty; at `CheckSeparator` the concatenation property already
holds and a cursor that still begins with `'/'` can only occur before the
path was parsed; after the path (`Query` / `Fragment`) the property
holds. -/
def PathInv : ParsingSteps → URIData → List Char → Prop
  | .query, st, _ => concatAll st.pathSegments = st.path
  | .fragment, st, _ => concatAll st.pathSegments = st.path
  | .checkSeparator, st, uri =>
    concatAll st.pathSegments = st.path ∧
      (∀ xs, uri = '/' :: xs → st.path = [] ∧ st.pathSegments = [])
  | _, st, _ => st.path = [] ∧ st.pathSegments = []

/-- The parse of `"/a"`: a pure path, no authority. -/
def uriOfSlashA : URIData :=
  { emptyURIData with
      path := ['/', 'a'], pathSegments := [['/'], ['a']],
      isAbsolutePath := true }

/-- The parse of `"/b"`: a pure path, no authority. -/
def uriOfSlashB : URIData :=
  { emptyURIData with
      path := ['/', 'b'], pathSegments := [['/'], ['b']],
      isAbsolutePath := true }

end uri

namespace uri

/-! ## Helper lemmas about the search functions -/

theorem findCh_some_lt {c : Char} {l : List Char} {n : Nat}
    (h : findCh c l = some n) : n < l.length := by
  induction l generalizing n with
  | nil => simp [findCh] at h
  | cons x xs ih =>
    simp only [findCh] at h
    split at h
    · cases h; simp
    · obtain ⟨m, hm, rfl⟩ := Option.map_eq_some'.mp h
      have := ih hm
      simp only [List.length_cons]
      omega

theorem findCh_none_iff {c : Char} {l : List Char} :
    findCh c l = none ↔ c ∉ l := by
  induction l with
  | nil => simp [findCh]
  | cons x xs ih =>
    simp only [findCh]
    split
    · rename_i hx
      subst hx
      simp
    · rename_i hx
      rw [Option.map_eq_none', ih]
      simp only [List.mem_cons, not_or]
      constructor
      · intro hm
        exact ⟨fun he => hx he.symm, hm⟩
      · intro hm
        exact hm.2

theorem findCh_some_mem {c : Char} {l : List Char} {n : Nat}
    (h : findCh c l = some n) : c ∈ l := by
  by_contra hc
  rw [findCh_none_iff.mpr hc] at h
  cases h

theorem findAny_some_lt {cs l : List Char} {n : Nat}
    (h : findAny cs l = some n) : n < l.length := by
  induction l generalizing n with
  | nil => simp [findAny] at h
  | cons x xs ih =>
    simp only [findAny] at h
    split at h
    · cases h; simp
    · obtain ⟨m, hm, rfl⟩ := Option.map_eq_some'.mp h
      have := ih hm
      simp only [List.length_cons]
      omega

theorem findAny_drop_cons {cs l : List Char} {n : Nat}
    (h : findAny cs l = some n) :
    ∃ x, x ∈ cs ∧ l.drop n = x :: l.drop (n + 1) := by
  induction l generalizing n with
  | nil => simp [findAny] at h
  | cons y ys ih =>
    simp only [findAny] at h
    split at h
    · rename_i hy
      cases h
      exact ⟨y, hy, by simp⟩
    · obtain ⟨m, hm, rfl⟩ := Option.map_eq_some'.mp h
      obtain ⟨x, hx, hd⟩ := ih hm
      exact ⟨x, hx, by simpa using hd⟩

theorem findLast_none_of_not_mem {c : Char} {l : List Char} (h : c ∉ l) :
    findLast c l = none := by
  induction l with
  | nil => rfl
  | cons x xs ih =>
    simp only [findLast]
    rw [ih (fun hm => h (List.mem_cons_of_mem x hm))]
    have hx : ¬ x = c := fun he => h (he ▸ List.mem_cons_self x xs)
    simp [hx]

/-! ## Helper lemmas: segmentation and the query loop -/

theorem concatAll_append (a b : List (List Char)) :
    concatAll (a ++ b) = concatAll a ++ concatAll b := by
  induction a with
  | nil => rfl
  | cons s rest ih => simp [concatAll, ih]

theorem pathSegLoop_concat :
    ∀ (fuel : Nat) (p : List Char), p.length ≤ fuel →
      concatAll (pathSegLoop fuel p) = p := by
  intro fuel
  induction fuel with
  | zero =>
    intro p hp
    have : p = [] := List.length_eq_zero.mp (Nat.le_zero.mp hp)
    subst this
    rfl
  | succ f ih =>
    intro p hp
    match p with
    | [] => rfl
    | x :: xs =>
      simp only [pathSegLoop]
      cases hfind : findCh '/' (x :: xs) with
      | none => simp [concatAll]
      | some pos =>
        have hlt := findCh_some_lt hfind
        have hlen : ((x :: xs).drop (pos + 1)).length ≤ f := by
          simp only [List.length_drop]
          simp only [List.length_cons] at hlt hp ⊢
          omega
        simp only [concatAll]
        rw [ih _ hlen]
        exact List.take_append_drop (pos + 1) (x :: xs)

theorem splitLoop_ne_nil (fuel : Nat) (l : List Char) :
    splitLoop fuel l ≠ [] := by
  cases fuel with
  | zero => simp [splitLoop]
  | succ f =>
    simp only [splitLoop]
    cases findCh '&' l <;> simp

theorem queryLoop_error_val :
    ∀ (fuel : Nat) (qs : List (List Char × List Char)) (ql : List Char) (e : ParseError),
      queryLoop fuel qs ql = .error e → e = .malformedQuery := by
  intro fuel
  induction fuel with
  | zero =>
    intro qs ql e h
    cases ql <;> simp [queryLoop] at h
  | succ f ih =>
    intro qs ql e h
    match ql with
    | [] => simp [queryLoop] at h
    | x :: xs =>
      simp only [queryLoop] at h
      split at h
      · split at h
        · cases h; rfl
        · exact ih _ _ _ h
      · split at h
        · cases h; rfl
        · cases h

theorem queryLoop_error_iff :
    ∀ (fuel : Nat) (qs : List (List Char × List Char)) (ql : List Char),
      ql.length ≤ fuel →
      (queryLoop fuel qs ql = .error .malformedQuery ↔
        anyBad (splitLoop fuel ql) = true) := by
  intro fuel
  induction fuel with
  | zero =>
    intro qs ql hl
    have : ql = [] := List.length_eq_zero.mp (Nat.le_zero.mp hl)
    subst this
    simp [queryLoop, splitLoop, anyBad]
  | succ f ih =>
    intro qs ql hl
    match ql with
    | [] => simp [queryLoop, splitLoop, findCh, anyBad]
    | x :: xs =>
      simp only [queryLoop, splitLoop]
      cases hamp : findCh '&' (x :: xs) with
      | none =>
        simp only [hamp]
        cases heq : findCh '=' (x :: xs) with
        | none =>
          have hni : '=' ∉ (x :: xs) := findCh_none_iff.mp heq
          simp [anyBad, hni]
        | some eq =>
          have hmi : '=' ∈ (x :: xs) := findCh_some_mem heq
          simp [anyBad, hmi]
      | some pos =>
        simp only [hamp]
        have hpos := findCh_some_lt hamp
        have hrest : ((x :: xs).drop (pos + 1)).length ≤ f := by
          simp only [List.length_drop]
          simp only [List.length_cons] at hpos hl ⊢
          omega
        obtain ⟨q, t, hqt⟩ :=
          List.exists_cons_of_ne_nil (splitLoop_ne_nil f ((x :: xs).drop (pos + 1)))
        cases heq : findCh '=' ((x :: xs).take pos) with
        | none =>
          simp only [heq]
          have hni : '=' ∉ (x :: xs).take pos := findCh_none_iff.mp heq
          rw [hqt]
          simp [anyBad, hni]
        | some eq =>
          simp only [heq]
          have hmi : '=' ∈ (x :: xs).take pos := findCh_some_mem heq
          rw [ih _ _ hrest, hqt]
          simp [anyBad, hmi]

/-! ## Helper lemmas: the sub-parsers preserve unrelated fields -/

theorem authoritySlice_subset (uri : List Char) : authoritySlice uri ⊆ uri := by
  unfold authoritySlice
  cases findAny ['/', '#', '?'] uri with
  | none => exact fun a ha => ha
  | some pos => exact List.take_subset pos uri

theorem tryParseScheme_fields (st : URIData) (uri : List Char) :
    (tryParseScheme st uri).1.user = st.user ∧
    (tryParseScheme st uri).1.port = st.port ∧
    (tryParseScheme st uri).1.path = st.path ∧
    (tryParseScheme st uri).1.pathSegments = st.pathSegments ∧
    (tryParseScheme st uri).2 ⊆ uri := by
  unfold tryParseScheme
  cases findSeq [':', '/', '/'] uri with
  | none => exact ⟨rfl, rfl, rfl, rfl, fun a ha => ha⟩
  | some k => exact ⟨rfl, rfl, rfl, rfl, List.drop_subset _ uri⟩

theorem tryParseUser_ok {st st2 : URIData} {uri rest : List Char}
    (h : tryParseUser st uri = .ok (st2, rest)) :
    st2.path = st.path ∧ st2.pathSegments = st.pathSegments ∧
    st2.port = st.port ∧ rest ⊆ uri ∧
    ('@' ∉ uri → st2 = st) := by
  unfold tryParseUser at h
  cases hf : findCh '@' uri with
  | none =>
    rw [hf] at h
    cases h
    exact ⟨rfl, rfl, rfl, fun a ha => ha, fun _ => rfl⟩
  | some k =>
    rw [hf] at h
    match k, h with
    | k + 1, h =>
      cases h
      refine ⟨rfl, rfl, rfl, List.drop_subset _ uri, fun hna => ?_⟩
      exact absurd (findCh_some_mem hf) hna

theorem tryParseHost_fields (st : URIData) (uri : List Char) :
    (tryParseHost st uri).1.user = st.user ∧
    (tryParseHost st uri).1.path = st.path ∧
    (tryParseHost st uri).1.pathSegments = st.pathSegments ∧
    (':' ∉ uri → (tryParseHost st uri).1.port = st.port) := by
  unfold tryParseHost
  cases hfl : findLast ':' uri with
  | none => exact ⟨rfl, rfl, rfl, fun _ => rfl⟩
  | some k =>
    refine ⟨rfl, rfl, rfl, fun hc => ?_⟩
    rw [findLast_none_of_not_mem hc] at hfl
    cases hfl

theorem tryParseAuthority_ok {st st2 : URIData} {uri rest2 : List Char}
    (h : tryParseAuthority st uri = .ok (st2, rest2)) :
    rest2 ⊆ uri ∧ st2.path = st.path ∧ st2.pathSegments = st.pathSegments ∧
    ('@' ∉ uri → st2.user = st.user) ∧
    (':' ∉ uri → st2.port = st.port) := by
  unfold tryParseAuthority at h
  cases hu : tryParseUser st (authoritySlice uri) with
  | error e => rw [hu] at h; cases h
  | ok p =>
    obtain ⟨st1, rest⟩ := p
    rw [hu] at h
    cases h
    obtain ⟨hpath1, hsegs1, hport1, hrsub, hid⟩ := tryParseUser_ok hu
    have hrest_sub : rest ⊆ uri := fun a ha => authoritySlice_subset uri (hrsub ha)
    refine ⟨List.drop_subset _ uri, ?_, ?_, ?_, ?_⟩
    · split
      · exact hpath1
      · exact (tryParseHost_fields st1 rest).2.1.trans hpath1
    · split
      · exact hsegs1
      · exact (tryParseHost_fields st1 rest).2.2.1.trans hsegs1
    · intro hna
      have hna' : '@' ∉ authoritySlice uri :=
        fun hm => hna (authoritySlice_subset uri hm)
      rw [hid hna']
      split
      · rfl
      · exact (tryParseHost_fields st rest).1
    · intro hnc
      have hnc' : ':' ∉ rest := fun hm => hnc (hrest_sub hm)
      split
      · exact hport1
      · exact ((tryParseHost_fields st1 rest).2.2.2 hnc').trans hport1

theorem pathSlice_drop_sep {uri : List Char} {y : Char} {ys : List Char}
    (h : uri.drop (pathSlice uri).length = y :: ys) : y = '?' ∨ y = '#' := by
  unfold pathSlice at h
  cases hfa : findAny ['?', '#'] uri with
  | none =>
    rw [hfa] at h
    simp at h
  | some pos =>
    rw [hfa] at h
    have hlt := findAny_some_lt hfa
    have hlen : (uri.take pos).length = pos := by
      simp [List.length_take]
      omega
    rw [hlen] at h
    obtain ⟨x, hx, hd⟩ := findAny_drop_cons hfa
    rw [hd] at h
    cases h
    simpa using hx

theorem tryParsePath_ok {st st2 : URIData} {uri0 rest2 : List Char}
    (h : tryParsePath st uri0 = .ok (st2, rest2)) :
    st2.user = st.user ∧ st2.port = st.port ∧ rest2 ⊆ uri0 ∧
    (st.pathSegments = [] → concatAll st2.pathSegments = st2.path) ∧
    (∀ y ys, rest2 = y :: ys → y = '?' ∨ y = '#') := by
  unfold tryParsePath at h
  split at h
  · cases h
  · rename_i c cs hcs
    cases h
    have hsub0 : (c :: cs) ⊆ uri0 := by
      rw [← hcs]
      split
      · exact fun a ha => ha
      · exact List.drop_subset 1 uri0
    refine ⟨rfl, rfl, fun a ha => hsub0 (List.drop_subset _ _ ha), ?_, ?_⟩
    · intro hsegs
      simp only [hsegs, List.nil_append]
      exact pathSegLoop_concat _ _ (Nat.le_refl _)
    · intro y ys hy
      exact pathSlice_drop_sep hy

theorem tryParseQuery_ok {st st2 : URIData} {uri rest2 : List Char}
    (h : tryParseQuery st uri = .ok (st2, rest2)) :
    st2.user = st.user ∧ st2.port = st.port ∧ st2.path = st.path ∧
    st2.pathSegments = st.pathSegments ∧ rest2 ⊆ uri := by
  unfold tryParseQuery at h
  split at h
  · cases h
  · cases h
    exact ⟨rfl, rfl, rfl, rfl, List.drop_subset _ uri⟩

theorem tryParseFragment_fields (st : URIData) (u : List Char) :
    (tryParseFragment st u).1.user = st.user ∧
    (tryParseFragment st u).1.port = st.port ∧
    (tryParseFragment st u).1.path = st.path ∧
    (tryParseFragment st u).1.pathSegments = st.pathSegments ∧
    (tryParseFragment st u).2 = [] :=
  ⟨rfl, rfl, rfl, rfl, rfl⟩

/-! ## Master lemmas over the parse state machine -/

theorem parseLoop_user_port :
    ∀ (fuel : Nat) (step : ParsingSteps) (st : URIData) (uri : List Char)
      (st' : URIData), parseLoop fuel step st uri = .ok st' →
      ('@' ∉ uri → st'.user = st.user) ∧ (':' ∉ uri → st'.port = st.port) := by
  intro fuel
  induction fuel with
  | zero =>
    intro step st uri st' h
    cases uri with
    | nil => cases h; exact ⟨fun _ => rfl, fun _ => rfl⟩
    | cons c rest => cases h; exact ⟨fun _ => rfl, fun _ => rfl⟩
  | succ f ih =>
    intro step st uri st' h
    cases uri with
    | nil => cases h; exact ⟨fun _ => rfl, fun _ => rfl⟩
    | cons c rest =>
      cases step with
      | scheme =>
        obtain ⟨hu, hp, _, _, hsub⟩ := tryParseScheme_fields st (c :: rest)
        have hih := ih _ _ _ _ h
        exact ⟨fun hna => (hih.1 fun hm => hna (hsub hm)).trans hu,
               fun hnc => (hih.2 fun hm => hnc (hsub hm)).trans hp⟩
      | checkAuthority =>
        simp only [parseLoop] at h
        split at h
        · split at h
          · have hih := ih _ _ _ _ h
            exact ⟨fun hna => hih.1 fun hm => hna (List.drop_subset 2 _ hm),
                   fun hnc => hih.2 fun hm => hnc (List.drop_subset 2 _ hm)⟩
          · exact ih _ _ _ _ h
        · exact ih _ _ _ _ h
      | authority =>
        simp only [parseLoop] at h
        cases ha : tryParseAuthority st (c :: rest) with
        | error e => rw [ha] at h; cases h
        | ok p =>
          obtain ⟨st2, rest2⟩ := p
          rw [ha] at h
          obtain ⟨hsub, _, _, huser, hport⟩ := tryParseAuthority_ok ha
          have hih := ih _ _ _ _ h
          exact ⟨fun hna => (hih.1 fun hm => hna (hsub hm)).trans (huser hna),
                 fun hnc => (hih.2 fun hm => hnc (hsub hm)).trans (hport hnc)⟩
      | checkSeparator =>
        simp only [parseLoop] at h
        split at h
        · exact ih _ _ _ _ h
        · split at h
          · have hih := ih _ _ _ _ h
            exact ⟨fun hna => hih.1 fun hm => hna (List.mem_cons_of_mem c hm),
                   fun hnc => hih.2 fun hm => hnc (List.mem_cons_of_mem c hm)⟩
          · have hih := ih _ _ _ _ h
            exact ⟨fun hna => hih.1 fun hm => hna (List.mem_cons_of_mem c hm),
                   fun hnc => hih.2 fun hm => hnc (List.mem_cons_of_mem c hm)⟩
      | path =>
        simp only [parseLoop] at h
        cases hp : tryParsePath st (c :: rest) with
        | error e => rw [hp] at h; cases h
        | ok p =>
          obtain ⟨st2, rest2⟩ := p
          rw [hp] at h
          obtain ⟨huser, hport, hsub, _, _⟩ := tryParsePath_ok hp
          have hih := ih _ _ _ _ h
          exact ⟨fun hna => (hih.1 fun hm => hna (hsub hm)).trans huser,
                 fun hnc => (hih.2 fun hm => hnc (hsub hm)).trans hport⟩
      | query =>
        simp only [parseLoop] at h
        cases hq : tryParseQuery st (c :: rest) with
        | error e => rw [hq] at h; cases h
        | ok p =>
          obtain ⟨st2, rest2⟩ := p
          rw [hq] at h
          obtain ⟨huser, hport, _, _, hsub⟩ := tryParseQuery_ok hq
          have hih := ih _ _ _ _ h
          exact ⟨fun hna => (hih.1 fun hm => hna (hsub hm)).trans huser,
                 fun hnc => (hih.2 fun hm => hnc (hsub hm)).trans hport⟩
      | fragment =>
        obtain ⟨hu, hp, _, _, hnil⟩ := tryParseFragment_fields st (c :: rest)
        have hih := ih _ _ _ _ h
        refine ⟨fun _ => ?_, fun _ => ?_⟩
        · rw [hih.1 ?_, hu]
          rw [hnil]
          exact List.not_mem_nil '@'
        · rw [hih.2 ?_, hp]
          rw [hnil]
          exact List.not_mem_nil ':'

theorem parseLoop_pathinv :
    ∀ (fuel : Nat) (step : ParsingSteps) (st : URIData) (uri : List Char)
      (st' : URIData), parseLoop fuel step st uri = .ok st' →
      PathInv step st uri → concatAll st'.pathSegments = st'.path := by
  intro fuel
  induction fuel with
  | zero =>
    intro step st uri st' h hinv
    have hst : st' = st := by
      cases uri with
      | nil => cases h; rfl
      | cons c rest => cases h; rfl
    subst hst
    cases step with
    | query => exact hinv
    | fragment => exact hinv
    | checkSeparator => exact hinv.1
    | scheme => rw [hinv.1, hinv.2]; rfl
    | checkAuthority => rw [hinv.1, hinv.2]; rfl
    | authority => rw [hinv.1, hinv.2]; rfl
    | path => rw [hinv.1, hinv.2]; rfl
  | succ f ih =>
    intro step st uri st' h hinv
    cases uri with
    | nil =>
      cases h
      cases step with
      | query => exact hinv
      | fragment => exact hinv
      | checkSeparator => exact hinv.1
      | scheme => rw [hinv.1, hinv.2]; rfl
      | checkAuthority => rw [hinv.1, hinv.2]; rfl
      | authority => rw [hinv.1, hinv.2]; rfl
      | path => rw [hinv.1, hinv.2]; rfl
    | cons c rest =>
      cases step with
      | scheme =>
        obtain ⟨_, _, hpath, hsegs, _⟩ := tryParseScheme_fields st (c :: rest)
        exact ih _ _ _ _ h ⟨hpath.trans hinv.1, hsegs.trans hinv.2⟩
      | checkAuthority =>
        simp only [parseLoop] at h
        split at h
        · split at h
          · exact ih _ _ _ _ h hinv
          · exact ih _ _ _ _ h hinv
        · refine ih _ _ _ _ h ⟨?_, fun xs _ => hinv⟩
          rw [hinv.1, hinv.2]; rfl
      | authority =>
        simp only [parseLoop] at h
        cases ha : tryParseAuthority st (c :: rest) with
        | error e => rw [ha] at h; cases h
        | ok p =>
          obtain ⟨st2, rest2⟩ := p
          rw [ha] at h
          obtain ⟨_, hpath, hsegs, _, _⟩ := tryParseAuthority_ok ha
          refine ih _ _ _ _ h ⟨?_, fun xs _ => ⟨hpath.trans hinv.1, hsegs.trans hinv.2⟩⟩
          rw [hpath, hsegs, hinv.1, hinv.2]; rfl
      | checkSeparator =>
        simp only [parseLoop] at h
        split at h
        · rename_i hc
          exact ih _ _ _ _ h (hinv.2 rest (by rw [hc]))
        · split at h
          · exact ih _ _ _ _ h hinv.1
          · exact ih _ _ _ _ h hinv.1
      | path =>
        simp only [parseLoop] at h
        cases hp : tryParsePath st (c :: rest) with
        | error e => rw [hp] at h; cases h
        | ok p =>
          obtain ⟨st2, rest2⟩ := p
          rw [hp] at h
          obtain ⟨_, _, _, hconc, hsep⟩ := tryParsePath_ok hp
          refine ih _ _ _ _ h ⟨hconc hinv.2, fun xs hx => ?_⟩
          rcases hsep '/' xs hx with h1 | h1 <;> exact absurd h1 (by decide)
      | query =>
        simp only [parseLoop] at h
        cases hq : tryParseQuery st (c :: rest) with
        | error e => rw [hq] at h; cases h
        | ok p =>
          obtain ⟨st2, rest2⟩ := p
          rw [hq] at h
          obtain ⟨_, _, hpath, hsegs, _⟩ := tryParseQuery_ok hq
          refine ih _ _ _ _ h ?_
          show concatAll st2.pathSegments = st2.path
          rw [hsegs, hpath]
          exact hinv
      | fragment =>
        obtain ⟨_, _, hpath, hsegs, _⟩ := tryParseFragment_fields st (c :: rest)
        refine ih _ _ _ _ h ?_
        show concatAll (tryParseFragment st (c :: rest)).1.pathSegments =
          (tryParseFragment st (c :: rest)).1.path
        rw [hsegs, hpath]
        exact hinv

/-! ## Theorems: claims about the element predicates -/

/-- **C3.** The claim says `decimal_octet("0")` is accepted (and the code's
own comment reads `valid: 0-9`), but the length-1 branch returns
`value > 0`, which rejects the digit zero.  This theorem evaluates the code
at the failing input `"0"`. -/
theorem C3_decimal_octet_rejects_zero :
    uri.is_decimal_octet (String.toList "0") = false := by decide

/-- **C4.** The claim says strings with content after the fourth octet,
such as `"1.2.3.4.5"`, are rejected; but the scan stops as soon as four
octets have been captured (at the fourth `'.'`), never examining the tail,
so `is_IPv4("1.2.3.4.5")` returns `true`. -/
theorem C4_is_IPv4_accepts_trailing_content :
    uri.is_IPv4 (String.toList "1.2.3.4.5") = true := by decide

/-- **C10.** The claim says the percent-encoding validators perform no
out-of-bounds access; but on the one-character view `"%"` the guard
`0 < size() - 2` is computed in unsigned arithmetic, `1 - 2` wraps to
`2^64 - 1`, the guard passes, and the code reads index 1 of a length-1
view: the instrumented checker reports the out-of-bounds read (`none`). -/
theorem C10_regular_name_oob_on_percent :
    uri.is_regular_name_checked (String.toList "%") = none := by decide

/-! ## Theorems: concrete parses -/

/-- **C1, counterexample.** The claim says parsing `"mailto:bob@local"`
yields scheme `mailto` and user `bob`; in fact `tryParseScheme` only fires
on the literal `"://"`, so the scheme stays empty (absent) and the text
`"mailto:bob"` becomes the user. -/
theorem C1_counterexample :
    (uri.parse (String.toList "mailto:bob@local")).toOption.map
        (fun p => (p.2.scheme, p.2.user)) =
      some ([], String.toList "mailto:bob") := rfl

/-- **C1, amended.** Parsing `"mailto:bob@local"` yields scheme absent,
user `"mailto:bob"`, host `"local"`, and no path, no query, no fragment
(the scheme is recognised only before a literal `"://"`, so a lone `':'`
stays inside the authority slice and lands in the user). -/
theorem C1_amended :
    uri.parse (String.toList "mailto:bob@local") =
      .ok (.noError,
        { emptyURIData with
            user := String.toList "mailto:bob",
            host := String.toList "local" }) := rfl

/-- **C2, counterexample.** The claim says parsing `"//host/path"` yields
path `"/path"` with `is_absolute_path = true`; in fact, as an authority was
recognised, the leading `'/'` is consumed before the path is captured and
before the absolute-path test, so the stored path is `"path"` and the flag
is `false`. -/
theorem C2_counterexample :
    (uri.parse (String.toList "//host/path")).toOption.map
        (fun p => (p.2.path, p.2.isAbsolutePath)) =
      some (String.toList "path", false) := rfl

/-- **C2, amended.** When an authority is recognised, one leading `'/'` is
consumed before the path is captured, and `is_absolute_path` tests the
first byte *after* that consumption: parsing `"//host/path"` yields scheme
absent, host `"host"`, path `"path"` (one segment), and
`is_absolute_path = false`. -/
theorem C2_amended :
    uri.parse (String.toList "//host/path") =
      .ok (.noError,
        { emptyURIData with
            host := String.toList "host",
            path := String.toList "path",
            pathSegments := [String.toList "path"] }) := rfl

/-- **C5, counterexample.** The claim says an empty host forces empty port
and user; but the authority slice of `"//u@:8080/x"` is `"u@:8080"`, whose
user is `"u"` and whose host–port split at the last `':'` leaves an empty
host and port `"8080"`. -/
theorem C5_counterexample :
    (uri.parse (String.toList "//u@:8080/x")).toOption.map
        (fun p => (p.2.host, p.2.user, p.2.port)) =
      some ([], String.toList "u", String.toList "8080") := rfl

/-- **C7, counterexample.** The claim says the parse fails with
`MalformedQuery` when some `'&'`-separated piece of the query text has no
`'='`; the query text `"a=1&"` splits into `["a=1", ""]` and the empty
piece has no `'='`, yet the parse succeeds — the loop stops on the empty
remainder left by the trailing `'&'` without examining the empty final
piece. -/
theorem C7_counterexample :
    uri.splitOnAmp (String.toList "a=1&") = [String.toList "a=1", []] ∧
    uri.parse (String.toList "?a=1&") =
      .ok (.noError,
        { emptyURIData with
            queryLine := String.toList "a=1&",
            queries := [(String.toList "a", String.toList "1")] }) :=
  ⟨rfl, rfl⟩

/-- **C8.** The claim says `set_scheme(new)` replaces the scheme text, or
prepends `new` and `':'` when no scheme is present.  In fact, with a scheme
present the code passes the first scheme *character* (converted to its
code point) as the replace position — for `"http://h"` that position is
`'h' = 104`, past the 8-byte buffer, so `std::string::replace` throws
`std::out_of_range`; with no scheme the code appends the empty substring
`(new + ":").substr(size, 0)`, leaving the raw text unchanged. -/
theorem C8_setScheme_broken :
    (uri.parse (String.toList "http://h")).toOption.map (fun p => p.2.scheme) =
        some (String.toList "http") ∧
    uri.setScheme (String.toList "http://h") (String.toList "http")
        (String.toList "ftp") = .error .outOfRange ∧
    uri.setScheme (String.toList "/a") [] (String.toList "ftp") =
        .ok (String.toList "/a") :=
  ⟨rfl, rfl, rfl⟩

/-- **C9.** The claim says the path step inspects the first byte of the
cursor only when the cursor is non-empty; but for `"http://host/"` the
path step receives the cursor `"/"`, consumes the `'/'` because an
authority was recognised, and then calls `front()` on the now-empty
cursor — an out-of-bounds read, surfaced by the model as
`.error .outOfBounds`. -/
theorem C9_front_oob_on_empty_path :
    uri.parse (String.toList "http://host/") = .error .outOfBounds := rfl

/-! ## Theorems: universal properties of the parse -/

/-- **C5, amended.** `user` and `port` are populated only from the
authority text: for every successfully parsed URI whose host is empty,
*provided the input contains no `'@'` and no `':'`*, the user and the port
are empty.  (An empty host alone does not force this — see the
counterexample `"//u@:8080/x"`.) -/
theorem C5_amended (input : List Char) (r : ParsingResult) (st : URIData)
    (h : parse input = .ok (r, st)) (_hhost : st.host = [])
    (hat : '@' ∉ input) (hcolon : ':' ∉ input) :
    st.user = [] ∧ st.port = [] := by
  unfold parse at h
  split at h
  · cases h
    exact ⟨rfl, rfl⟩
  · cases hl : parseLoop (input.length + 8) .scheme emptyURIData input with
    | error e => rw [hl] at h; cases h
    | ok st0 =>
      rw [hl] at h
      cases h
      have hup := parseLoop_user_port _ _ _ _ _ hl
      exact ⟨hup.1 hat, hup.2 hcolon⟩

/-- Witness for `C5_amended`: the input `"/b"` parses with empty host and
contains neither `'@'` nor `':'`, and indeed its user and port are empty. -/
theorem C5_amended_witness : uriOfSlashB.user = [] ∧ uriOfSlashB.port = [] :=
  C5_amended (String.toList "/b") .noError uriOfSlashB rfl rfl
    (by decide) (by decide)

/-- **C6.** For every successfully parsed URI, concatenating all path
segments in order yields exactly the stored path text, separators
included. -/
theorem C6_segment_reconstruction (input : List Char) (r : ParsingResult)
    (st : URIData) (h : parse input = .ok (r, st)) :
    concatAll st.pathSegments = st.path := by
  unfold parse at h
  split at h
  · cases h
    rfl
  · cases hl : parseLoop (input.length + 8) .scheme emptyURIData input with
    | error e => rw [hl] at h; cases h
    | ok st0 =>
      rw [hl] at h
      cases h
      exact parseLoop_pathinv _ _ _ _ _ hl ⟨rfl, rfl⟩

/-- Witness for `C6_segment_reconstruction`: the parse of `"/a"` has
segments `["/", "a"]`, whose concatenation is the stored path `"/a"`. -/
theorem C6_segment_reconstruction_witness :
    concatAll uriOfSlashA.pathSegments = uriOfSlashA.path :=
  C6_segment_reconstruction (String.toList "/a") .noError uriOfSlashA rfl

/-- **C7, amended.** The query step fails with `MalformedQuery` iff some
`'&'`-separated piece of the query text, other than a trailing *empty*
piece, contains no `'='`: the loop stops on the empty remainder left by a
trailing `'&'`, so a trailing empty piece (and an empty query text) never
fails. -/
theorem C7_amended (st : URIData) (l : List Char) :
    tryParseQuery st l = .error .malformedQuery ↔
      anyBad (splitOnAmp (querySlice l)) = true := by
  unfold tryParseQuery
  cases hq : queryLoop (querySlice l).length st.queries (querySlice l) with
  | error e =>
    have he := queryLoop_error_val _ _ _ _ hq
    subst he
    constructor
    · intro _
      exact (queryLoop_error_iff _ st.queries _ (Nat.le_refl _)).mp hq
    · intro _
      rfl
  | ok qs =>
    constructor
    · intro hcon
      cases hcon
    · intro hbad
      have hcontra :=
        (queryLoop_error_iff (querySlice l).length st.queries (querySlice l)
          (Nat.le_refl _)).mpr hbad
      rw [hq] at hcontra
      cases hcontra

/-- Witness for `C7_amended`: the query text `"x"` is a single non-empty
piece without `'='`, so the query step fails with `MalformedQuery`. -/
theorem C7_amended_witness :
    tryParseQuery emptyURIData (String.toList "x") = .error .malformedQuery :=
  (C7_amended emptyURIData (String.toList "x")).mpr (by decide)

end uri
